import Mathlib

/-!
Shallow embedding of the core saturation-engine components of the Vampire
theorem prover, together with theorems checking the natural-language
specification against the code.

Covered source files:
* Saturation/LRS.cpp — the Limited Resource Strategy saturation loop
  (shouldUpdateLimits, estimatedReachableCount, doSaturation);
* Kernel/Rebalancing/Inverters.cpp — the number-theory inverters
  (canInvertTop, invertTop, tryInvertMulInt and friends);
* CASC/CASCMode.hpp — the portfolio scheduler interface (runSchedule,
  modelled from the spec since only the declaration is in scope);
* Indexing/LiteralSubstitutionTree.hpp — the literal index interface
  (getUnifications, modelled from the spec since only the declaration is
  in scope), backed by a verified first-order unification algorithm.
-/

namespace Vamp

/-! ## LRS: data read from the environment (Shell/Options, Lib/Timer, Statistics) -/

/-- Option values read by the LRS saturation loop. -/
structure LRSOptions where
  lrsFirstTimeCheck : Int
  timeLimitInDeciseconds : Int
  simulatedTimeLimit : Int
  complete : Bool

/-- The age/weight limit state exposed by getLimits(). -/
structure Limits where
  weightLimited : Bool
  ageLimited : Bool

/-- The environment readings made by one call of LRS::estimatedReachableCount:
the statistics counter of activated clauses, the current timer value in
milliseconds, and the loop start time. -/
structure EstEnv where
  opts : LRSOptions
  activeClauses : Int
  currTime : Int
  startTime : Int

/-- LRS::estimatedReachableCount.  Returns `none` exactly when the C++ code
would divide by zero (timeSpent = 0 at the final division, which is undefined
behaviour); otherwise `some` of the value the code returns.  The division is
C++ integer division, i.e. truncation towards zero (Int.tdiv). -/
def estimatedReachableCount (e : EstEnv) : Option Int :=
  let processed : Int := e.activeClauses
  let timeSpent : Int := e.currTime - e.startTime
  let firstCheck : Int := e.opts.lrsFirstTimeCheck * e.opts.timeLimitInDeciseconds
  if timeSpent < firstCheck then
    some (-1)
  else
    let timeLeft : Int :=
      if e.opts.simulatedTimeLimit ≠ 0 then
        e.opts.simulatedTimeLimit * 100 - e.currTime
      else
        e.opts.timeLimitInDeciseconds * 100 - e.currTime
    if timeLeft ≤ 0 ∨ processed ≤ 10 then
      some (-1)
    else if timeSpent = 0 then
      none
    else
      some (Int.tdiv (processed * timeLeft) timeSpent)

/-- The elapsed time `timeSpent` used by estimatedReachableCount. -/
def timeSpentOf (e : EstEnv) : Int := e.currTime - e.startTime

/-- The threshold `firstCheck` used by estimatedReachableCount. -/
def firstCheckOf (e : EstEnv) : Int :=
  e.opts.lrsFirstTimeCheck * e.opts.timeLimitInDeciseconds

/-- The remaining budget `timeLeft` used by estimatedReachableCount. -/
def timeLeftOf (e : EstEnv) : Int :=
  if e.opts.simulatedTimeLimit ≠ 0 then
    e.opts.simulatedTimeLimit * 100 - e.currTime
  else
    e.opts.timeLimitInDeciseconds * 100 - e.currTime

/-- LRS::shouldUpdateLimits.  The static call counter `cnt` is passed in and
the updated counter is returned next to the boolean result.  The counter is a
C++ `unsigned`, so the increment wraps modulo 2^32. -/
def shouldUpdateLimits (lims : Limits) (cnt : Nat) : Bool × Nat :=
  let c := (cnt + 1) % 4294967296
  if c = 500 ∨ ((lims.weightLimited = true ∨ lims.ageLimited = true) ∧ 50 < c) then
    (true, 0)
  else
    (false, c)

/-! ## LRS: the saturation loop

The loop calls a number of operations whose implementations live outside the
files in scope (containers, simplification, activation, the timer).  They are
modelled as deterministic functions over an opaque world type `W`; clauses are
an opaque type `C`.  Every operation returns the updated world. -/

/-- The external operations used by LRS::doSaturation. -/
structure Oracles (W C : Type) where
  opts : LRSOptions
  newClauses : W → List C × W
  forwardSimplify : C → W → Bool × W
  backwardSimplify : C → W → W
  addToPassive : C → W → Bool × W
  simplContAdd : C → W → W
  setStoreNone : C → W → W
  timeLimitReached : W → Bool
  elapsedMs : W → Int
  activeClauses : W → Int
  limits : W → Limits
  updateLimits : Int → W → W
  onAllProcessed : W → W
  clausesFlushed : W → Bool
  passiveIsEmpty : W → Bool
  popSelected : W → C × W
  activate : C → W → Bool × W
  handleUnsuccessfulActivation : C → W → W

/-- The state of the doSaturation loop: the unprocessed container, the local
`complete` flag, the static counter of shouldUpdateLimits and the start time. -/
structure LoopState (W C : Type) where
  world : W
  unprocessed : List C
  complete : Bool
  cnt : Nat
  startTime : Int

/-- Results of LRS::doSaturation relevant to the loop itself. -/
inductive SatResult where
  | satisfiable
  | refutationNotFound
  | timeLimit
deriving DecidableEq, Repr

/-- The limit-update block of doSaturation:
`_passive->updateLimits(est); if(complete){ complete = !weightLimited && !ageLimited; }`. -/
def limitUpdateStep {W C : Type} (o : Oracles W C) (w : W) (complete : Bool)
    (est : Int) : W × Bool :=
  let w' := o.updateLimits est w
  let complete' :=
    if complete then
      !(o.limits w').weightLimited && !(o.limits w').ageLimited
    else
      complete
  (w', complete')

/-- The simplification part of one inner loop body pass: forward simplify the
popped clause, on success backward simplify and try the passive container,
record the clause's destination, then absorb newly generated clauses.
Returns the new clauses and the world after line 104 of LRS.cpp. -/
def innerStepWorld {W C : Type} (o : Oracles W C) (w : W) (c : C) : List C × W :=
  let fw := o.forwardSimplify c w
  let ap :=
    if fw.1 then
      o.addToPassive c (o.backwardSimplify c fw.2)
    else
      (false, fw.2)
  let w4 := if ap.1 then o.simplContAdd c ap.2 else o.setStoreNone c ap.2
  o.newClauses w4

/-- One pass of the body of the inner `while (!_unprocessed->isEmpty())` loop of
doSaturation, for the popped clause `c` and remaining container `rest`.
`none` models undefined behaviour propagated from estimatedReachableCount. -/
def innerStep {W C : Type} (o : Oracles W C) (s : LoopState W C) (c : C)
    (rest : List C) : Option (SatResult ⊕ LoopState W C) :=
  let nc := innerStepWorld o s.world c
  let unp := rest ++ nc.1
  let w5 := nc.2
  if o.timeLimitReached w5 then
    some (.inl .timeLimit)
  else
    let su := shouldUpdateLimits (o.limits w5) s.cnt
    if su.1 then
      match estimatedReachableCount ⟨o.opts, o.activeClauses w5, o.elapsedMs w5, s.startTime⟩ with
      | none => none
      | some est =>
        if 0 ≤ est then
          let ub := limitUpdateStep o w5 s.complete est
          some (.inr ⟨ub.1, unp, ub.2, su.2, s.startTime⟩)
        else
          some (.inr ⟨w5, unp, s.complete, su.2, s.startTime⟩)
    else
      some (.inr ⟨w5, unp, s.complete, su.2, s.startTime⟩)

/-- The inner `while (!_unprocessed->isEmpty())` loop of doSaturation, with
fuel bounding the number of clauses processed.  `none`: out of fuel or
undefined behaviour. -/
def innerLoop {W C : Type} (o : Oracles W C) (fuel : Nat) (s : LoopState W C) :
    Option (SatResult ⊕ LoopState W C) :=
  match s.unprocessed with
  | [] => some (.inr s)
  | c :: rest =>
    match fuel with
    | 0 => none
    | fuel' + 1 =>
      match innerStep o s c rest with
      | none => none
      | some (.inl r) => some (.inl r)
      | some (.inr s') => innerLoop o fuel' s'

/-- The outer `for (;;)` loop of LRS::doSaturation. -/
def outerLoop {W C : Type} (o : Oracles W C) (fuel : Nat) (s : LoopState W C) :
    Option SatResult :=
  match fuel with
  | 0 => none
  | fuel' + 1 =>
    let nc := o.newClauses s.world
    let s1 : LoopState W C :=
      { s with world := nc.2, unprocessed := s.unprocessed ++ nc.1 }
    match innerLoop o fuel' s1 with
    | none => none
    | some (.inl r) => some r
    | some (.inr s2) =>
      let w2 := o.onAllProcessed s2.world
      if o.clausesFlushed w2 = false then
        outerLoop o fuel' { s2 with world := w2 }
      else if o.passiveIsEmpty w2 then
        some (if s2.complete then SatResult.satisfiable else SatResult.refutationNotFound)
      else
        let pc := o.popSelected w2
        let av := o.activate pc.1 pc.2
        let w5 := if av.1 then av.2 else o.handleUnsuccessfulActivation pc.1 av.2
        if o.timeLimitReached w5 then
          some SatResult.timeLimit
        else
          outerLoop o fuel' { s2 with world := w5 }

/-- LRS::doSaturation: `complete` is initialised from the options; the
unprocessed container starts empty; the static counter of shouldUpdateLimits
starts at an arbitrary inherited value `cnt0`. -/
def doSaturation {W C : Type} (o : Oracles W C) (fuel : Nat) (w : W)
    (cnt0 : Nat) (startTime : Int) : Option SatResult :=
  outerLoop o fuel ⟨w, [], o.opts.complete, cnt0, startTime⟩

/-! ## CASC portfolio scheduler -/

/-- One slice of a CASC schedule: strategy code and slice time (deciseconds). -/
structure Slice where
  code : String
  sliceTime : Nat

/-- Modelled from the spec: the body of CASCMode::runSchedule is not among the
source files in scope (CASC/CASCMode.hpp only declares
`bool runSchedule(Schedule&, unsigned ds, StrategySet& remember, bool fallback)`).
Per the spec: for each slice, skip it if its code is in `remember`; otherwise
run the slice with budget `min(sliceTime, remainingBudget)`; on success return
true; on failure insert the code into `remember` and continue; if no slice
succeeds return false.  `runSlice` is the abstract slice runner. -/
def runSchedule (runSlice : String → Nat → Bool) :
    List Slice → Nat → List String → Bool
  | [], _, _ => false
  | s :: rest, budget, remember =>
    if s.code ∈ remember then
      runSchedule runSlice rest budget remember
    else if runSlice s.code (min s.sliceTime budget) then
      true
    else
      runSchedule runSlice rest budget (s.code :: remember)

/-! ## Rebalancing inverters (Kernel/Rebalancing/Inverters.cpp)

Terms are the ordered sum type of the data model: a variable or a compound
with a functor id and argument list.  The signature maps functor ids to their
interpretation (arithmetic over Int/Rat/Real, arrays, numeral constants),
term-algebra constructor status and destructors. -/

inductive Trm where
  | var (n : Nat)
  | app (f : Nat) (args : List Trm)

inductive NumSort where
  | int
  | rat
  | real
deriving DecidableEq, Repr

/-- Interpretations of function symbols relevant to the inverters:
arithmetic operations per numeric sort, numeral constants, array store and
select, and a catch-all for other interpreted functions. -/
inductive Interp where
  | add (s : NumSort)
  | minus (s : NumSort)
  | mul (s : NumSort)
  | div (s : NumSort)
  | numI (z : Int)
  | numQ (q : ℚ)
  | numR (q : ℚ)
  | arrayStore
  | arraySelect
  | otherI (k : Nat)
deriving DecidableEq

/-- The one-numeral of a numeric sort (NumTraits number::one()). -/
def numOne : NumSort → Interp
  | .int => .numI 1
  | .rat => .numQ 1
  | .real => .numR 1

/-- The signature: interpretation lookup (theory->interpretFunction /
isInterpretedFunction), term-algebra constructor status, destructor functors
(TermAlgebraConstructor::destructorFunctor), the functor interpreting a given
interpretation (Signature::getInterpretingSymbol), and the inverse destructor
map used by the evaluation semantics. -/
structure Signature where
  interp : Nat → Option Interp
  termAlgebraCons : Nat → Bool
  destructor : Nat → Nat → Nat
  fnOf : Interp → Nat
  dtorOf : Nat → Option (Nat × Nat)

/-- InversionContext { t, i, w }: invert the i-th argument of the compound
term with functor `topFun` and arguments `topArgs` against `toWrap`. -/
structure InversionContext where
  topFun : Nat
  topArgs : List Trm
  topIdx : Nat
  toWrap : Trm

/-- `t[1 - ctxt.topIdx()]`: the argument on the other side of a binary head. -/
def otherArg (ctx : InversionContext) : Trm :=
  ctx.topArgs.getD (1 - ctx.topIdx) (Trm.var 0)

/-- theory->tryInterpretConstant(t, IntegerConstantType&). -/
def tryInterpretConstantInt (sig : Signature) : Trm → Option Int
  | .app f [] =>
    match sig.interp f with
    | some (.numI z) => some z
    | _ => none
  | _ => none

/-- theory->tryInterpretConstant(t, RationalConstantType&). -/
def tryInterpretConstantRat (sig : Signature) : Trm → Option ℚ
  | .app f [] =>
    match sig.interp f with
    | some (.numQ q) => some q
    | _ => none
  | _ => none

/-- theory->tryInterpretConstant(t, RealConstantType&). -/
def tryInterpretConstantReal (sig : Signature) : Trm → Option ℚ
  | .app f [] =>
    match sig.interp f with
    | some (.numR q) => some q
    | _ => none
  | _ => none

/-- nonZero<NumTraits<RationalConstantType>>. -/
def nonZeroRat (sig : Signature) (t : Trm) : Bool :=
  match tryInterpretConstantRat sig t with
  | some c => decide (c ≠ 0)
  | none => false

/-- nonZero<NumTraits<RealConstantType>>. -/
def nonZeroReal (sig : Signature) (t : Trm) : Bool :=
  match tryInterpretConstantReal sig t with
  | some c => decide (c ≠ 0)
  | none => false

/-- tryInvertMulInt: the other argument must be the integer constant +1
(result: toWrap) or -1 (result: mul(other, toWrap)). -/
def tryInvertMulInt (sig : Signature) (ctx : InversionContext) : Option Trm :=
  let a' := otherArg ctx
  match tryInterpretConstantInt sig a' with
  | some a =>
    if a = 1 then some ctx.toWrap
    else if a = -1 then some (.app (sig.fnOf (.mul .int)) [a', ctx.toWrap])
    else none
  | none => none

/-- canInvertMulInt: calls tryInvertMulInt and discards the output term. -/
def canInvertMulInt (sig : Signature) (ctx : InversionContext) : Bool :=
  (tryInvertMulInt sig ctx).isSome

/-- NumberTheoryInverter::canInvertTop. -/
def canInvertTop (sig : Signature) (ctx : InversionContext) : Bool :=
  match sig.interp ctx.topFun with
  | some i =>
    match i with
    | .add _ => true
    | .minus _ => true
    | .mul .rat => nonZeroRat sig (otherArg ctx)
    | .mul .real => nonZeroReal sig (otherArg ctx)
    | .mul .int => canInvertMulInt sig ctx
    | .arrayStore => ctx.topIdx == 2
    | _ => false
  | none => sig.termAlgebraCons ctx.topFun

/-- The body of NumberTheoryInverter::invertTop after its precondition
assertion.  `none` models an assertion failure (ASSERTION_VIOLATION, the
ALWAYS in doInvertMulInt, ASS(topIdx == 2), ASS_REP(termAlgebraCons)). -/
def invertTopRaw (sig : Signature) (ctx : InversionContext) : Option Trm :=
  match sig.interp ctx.topFun with
  | some (.add s) =>
    some (.app (sig.fnOf (.add s))
      [ctx.toWrap, .app (sig.fnOf (.minus s)) [otherArg ctx]])
  | some (.minus s) =>
    some (.app (sig.fnOf (.minus s)) [ctx.toWrap])
  | some (.mul .int) => tryInvertMulInt sig ctx
  | some (.mul .rat) =>
    some (.app (sig.fnOf (.mul .rat))
      [ctx.toWrap,
       .app (sig.fnOf (.div .rat)) [.app (sig.fnOf (numOne .rat)) [], otherArg ctx]])
  | some (.mul .real) =>
    some (.app (sig.fnOf (.mul .real))
      [ctx.toWrap,
       .app (sig.fnOf (.div .real)) [.app (sig.fnOf (numOne .real)) [], otherArg ctx]])
  | some .arrayStore =>
    if ctx.topIdx = 2 then
      some (.app (sig.fnOf .arraySelect) [ctx.toWrap, ctx.topArgs.getD 1 (Trm.var 0)])
    else
      none
  | some _ => none
  | none =>
    if sig.termAlgebraCons ctx.topFun then
      some (.app (sig.destructor ctx.topFun ctx.topIdx) [ctx.toWrap])
    else
      none

/-- NumberTheoryInverter::invertTop, including its entry assertion
ASS(canInvertTop(ctxt)). -/
def invertTop (sig : Signature) (ctx : InversionContext) : Option Trm :=
  if canInvertTop sig ctx then invertTopRaw sig ctx else none

/-- Substituting a term for the topIdx-th argument of the top term. -/
def substTopArg (ctx : InversionContext) (r : Trm) : Trm :=
  .app ctx.topFun (ctx.topArgs.set ctx.topIdx r)

/-! ### Evaluation semantics for the inverter round-trip

Values: rationals (interpreting Int, Rat and Real numerals and arithmetic),
arrays as finite association lists over a default, free term-algebra values,
and `undef` for ill-sorted applications.  Uninterpreted and other interpreted
functions are evaluated by an arbitrary interpretation `ι`. -/

inductive Val where
  | num (q : ℚ)
  | arr (entries : List (ℚ × Val)) (dflt : Val)
  | freeC (c : Nat) (args : List Val)
  | undefV

def vadd : Val → Val → Val
  | .num a, .num b => .num (a + b)
  | _, _ => .undefV

def vneg : Val → Val
  | .num a => .num (-a)
  | _ => .undefV

def vmul : Val → Val → Val
  | .num a, .num b => .num (a * b)
  | _, _ => .undefV

def vdiv : Val → Val → Val
  | .num a, .num b => .num (a / b)
  | _, _ => .undefV

def findEntry (i : ℚ) : List (ℚ × Val) → Option Val
  | [] => none
  | e :: es => if e.1 = i then some e.2 else findEntry i es

def vselect : Val → Val → Val
  | .arr es d, .num i => (findEntry i es).getD d
  | _, _ => .undefV

def vstore : Val → Val → Val → Val
  | .arr es d, .num i, x => .arr ((i, x) :: es) d
  | _, _, _ => .undefV

/-- Interpretation of one application, given the already evaluated
arguments. -/
def interpApp (sig : Signature) (ι : Nat → List Val → Val) (f : Nat)
    (vs : List Val) : Val :=
  match sig.interp f with
  | some (.add _) => match vs with | [a, b] => vadd a b | _ => .undefV
  | some (.minus _) => match vs with | [a] => vneg a | _ => .undefV
  | some (.mul _) => match vs with | [a, b] => vmul a b | _ => .undefV
  | some (.div _) => match vs with | [a, b] => vdiv a b | _ => .undefV
  | some (.numI z) => match vs with | [] => .num (z : ℚ) | _ => .undefV
  | some (.numQ q) => match vs with | [] => .num q | _ => .undefV
  | some (.numR q) => match vs with | [] => .num q | _ => .undefV
  | some .arrayStore => match vs with | [a, i, x] => vstore a i x | _ => .undefV
  | some .arraySelect => match vs with | [a, i] => vselect a i | _ => .undefV
  | some (.otherI _) => ι f vs
  | none =>
    if sig.termAlgebraCons f then
      .freeC f vs
    else
      match sig.dtorOf f with
      | some ci =>
        match vs with
        | [.freeC c as] => if c = ci.1 then as.getD ci.2 .undefV else .undefV
        | _ => .undefV
      | none => ι f vs

mutual

/-- Evaluation of a term under a variable assignment `ρ` and an
interpretation `ι` of uninterpreted functions. -/
def eval (sig : Signature) (ρ : Nat → Val) (ι : Nat → List Val → Val) :
    Trm → Val
  | .var n => ρ n
  | .app f ts => interpApp sig ι f (evalL sig ρ ι ts)

def evalL (sig : Signature) (ρ : Nat → Val) (ι : Nat → List Val → Val) :
    List Trm → List Val
  | [] => []
  | t :: ts => eval sig ρ ι t :: evalL sig ρ ι ts

end

/-! ## First-order unification

Supports the model of the literal index (Indexing/LiteralSubstitutionTree.hpp:
only the declaration of getUnifications is among the source files in scope, so
retrieval is modelled from the spec).  Substitutions are triangular lists of
single bindings, applied left to right. -/

mutual

def Trm.size : Trm → Nat
  | .var _ => 1
  | .app _ ts => 1 + Trm.sizeL ts

def Trm.sizeL : List Trm → Nat
  | [] => 0
  | t :: ts => Trm.size t + Trm.sizeL ts

end

mutual

def Trm.vars : Trm → Finset Nat
  | .var n => {n}
  | .app _ ts => Trm.varsL ts

def Trm.varsL : List Trm → Finset Nat
  | [] => ∅
  | t :: ts => Trm.vars t ∪ Trm.varsL ts

end

mutual

/-- Replace every occurrence of variable `x` by `r`. -/
def Trm.subst1 (x : Nat) (r : Trm) : Trm → Trm
  | .var n => if n = x then r else .var n
  | .app f ts => .app f (Trm.subst1L x r ts)

def Trm.subst1L (x : Nat) (r : Trm) : List Trm → List Trm
  | [] => []
  | t :: ts => Trm.subst1 x r t :: Trm.subst1L x r ts

end

/-- Apply a single binding to both sides of every pair. -/
def pairSubst1 (x : Nat) (r : Trm) (l : List (Trm × Trm)) : List (Trm × Trm) :=
  l.map (fun p => (Trm.subst1 x r p.1, Trm.subst1 x r p.2))

/-- All variables of a list of pairs. -/
def varsP (l : List (Trm × Trm)) : Finset Nat :=
  l.foldr (fun p acc => p.1.vars ∪ p.2.vars ∪ acc) ∅

/-- Total size of a list of pairs. -/
def sizeP (l : List (Trm × Trm)) : Nat :=
  l.foldr (fun p acc => p.1.size + p.2.size + acc) 0

theorem Trm.subst1L_eq_map (x : Nat) (r : Trm) (ts : List Trm) :
    Trm.subst1L x r ts = ts.map (Trm.subst1 x r) := by
  induction ts with
  | nil => rfl
  | cons t ts ih => simp [Trm.subst1L, ih]

mutual

theorem Trm.vars_subst1 (x : Nat) (r : Trm) :
    ∀ t : Trm, (Trm.subst1 x r t).vars ⊆ (t.vars \ {x}) ∪ r.vars
  | .var n => by
    by_cases h : n = x <;>
      simp [Trm.subst1, Trm.vars, h, Finset.subset_union_right,
        Finset.singleton_subset_iff, Finset.mem_union, Finset.mem_sdiff]
  | .app f ts => by
    simpa [Trm.subst1, Trm.vars] using Trm.varsL_subst1 x r ts

theorem Trm.varsL_subst1 (x : Nat) (r : Trm) :
    ∀ ts : List Trm, Trm.varsL (Trm.subst1L x r ts) ⊆ (Trm.varsL ts \ {x}) ∪ r.vars
  | [] => by simp [Trm.subst1L, Trm.varsL]
  | t :: ts => by
    have h1 := Trm.vars_subst1 x r t
    have h2 := Trm.varsL_subst1 x r ts
    simp only [Trm.subst1L, Trm.varsL]
    intro a ha
    rcases Finset.mem_union.1 ha with h | h
    · rcases Finset.mem_union.1 (h1 h) with h' | h'
      · exact Finset.mem_union_left _ (by
          rcases Finset.mem_sdiff.1 h' with ⟨hm, hn⟩
          exact Finset.mem_sdiff.2 ⟨Finset.mem_union_left _ hm, hn⟩)
      · exact Finset.mem_union_right _ h'
    · rcases Finset.mem_union.1 (h2 h) with h' | h'
      · exact Finset.mem_union_left _ (by
          rcases Finset.mem_sdiff.1 h' with ⟨hm, hn⟩
          exact Finset.mem_sdiff.2 ⟨Finset.mem_union_right _ hm, hn⟩)
      · exact Finset.mem_union_right _ h'

end

theorem varsP_cons (p : Trm × Trm) (l : List (Trm × Trm)) :
    varsP (p :: l) = p.1.vars ∪ p.2.vars ∪ varsP l := rfl

theorem sizeP_cons (p : Trm × Trm) (l : List (Trm × Trm)) :
    sizeP (p :: l) = p.1.size + p.2.size + sizeP l := rfl

theorem varsP_append (a b : List (Trm × Trm)) :
    varsP (a ++ b) = varsP a ∪ varsP b := by
  induction a with
  | nil => simp [varsP]
  | cons p a ih =>
    simp only [List.cons_append, varsP_cons, ih, Finset.union_assoc]

theorem sizeP_append (a b : List (Trm × Trm)) :
    sizeP (a ++ b) = sizeP a + sizeP b := by
  induction a with
  | nil => simp [sizeP]
  | cons p a ih => simp only [List.cons_append, sizeP_cons, ih]; omega

theorem varsP_subst1_subset (x : Nat) (r : Trm) (l : List (Trm × Trm)) :
    varsP (pairSubst1 x r l) ⊆ (varsP l \ {x}) ∪ r.vars := by
  induction l with
  | nil => simp [pairSubst1, varsP]
  | cons p l ih =>
    simp only [pairSubst1, List.map_cons, varsP_cons] at *
    intro a ha
    have h1 := Trm.vars_subst1 x r p.1
    have h2 := Trm.vars_subst1 x r p.2
    rcases Finset.mem_union.1 ha with h | h
    · rcases Finset.mem_union.1 h with h | h
      · rcases Finset.mem_union.1 (h1 h) with h' | h'
        · rcases Finset.mem_sdiff.1 h' with ⟨hm, hn⟩
          exact Finset.mem_union_left _ (Finset.mem_sdiff.2
            ⟨Finset.mem_union_left _ (Finset.mem_union_left _ hm), hn⟩)
        · exact Finset.mem_union_right _ h'
      · rcases Finset.mem_union.1 (h2 h) with h' | h'
        · rcases Finset.mem_sdiff.1 h' with ⟨hm, hn⟩
          exact Finset.mem_union_left _ (Finset.mem_sdiff.2
            ⟨Finset.mem_union_left _ (Finset.mem_union_right _ hm), hn⟩)
        · exact Finset.mem_union_right _ h'
    · rcases Finset.mem_union.1 (ih h) with h' | h'
      · rcases Finset.mem_sdiff.1 h' with ⟨hm, hn⟩
        exact Finset.mem_union_left _ (Finset.mem_sdiff.2
          ⟨Finset.mem_union_right _ hm, hn⟩)
      · exact Finset.mem_union_right _ h'

theorem varsP_zip_subset (ts us : List Trm) :
    varsP (List.zip ts us) ⊆ Trm.varsL ts ∪ Trm.varsL us := by
  induction ts generalizing us with
  | nil => simp [varsP]
  | cons t ts ih =>
    cases us with
    | nil => simp [varsP]
    | cons u us =>
      simp only [List.zip_cons_cons, varsP_cons, Trm.varsL]
      intro a ha
      rcases Finset.mem_union.1 ha with h | h
      · rcases Finset.mem_union.1 h with h | h
        · exact Finset.mem_union_left _ (Finset.mem_union_left _ h)
        · exact Finset.mem_union_right _ (Finset.mem_union_left _ h)
      · rcases Finset.mem_union.1 (ih us h) with h' | h'
        · exact Finset.mem_union_left _ (Finset.mem_union_right _ h')
        · exact Finset.mem_union_right _ (Finset.mem_union_right _ h')

theorem sizeP_zip_le (ts us : List Trm) :
    sizeP (List.zip ts us) ≤ Trm.sizeL ts + Trm.sizeL us := by
  induction ts generalizing us with
  | nil => simp [sizeP]
  | cons t ts ih =>
    cases us with
    | nil =>
      simp only [List.zip_nil_right, sizeP, Trm.sizeL, List.foldr_nil]
      omega
    | cons u us =>
      simp only [List.zip_cons_cons, sizeP_cons, Trm.sizeL]
      have := ih us
      omega

/-- The decrease used at a variable-elimination step of unification. -/
theorem varsP_elim_card_lt (x : Nat) (t : Trm) (rest : List (Trm × Trm))
    (hocc : x ∉ t.vars) :
    (varsP (pairSubst1 x t rest)).card <
      (varsP ((Trm.var x, t) :: rest)).card := by
  have hsub : varsP (pairSubst1 x t rest) ⊆
      varsP ((Trm.var x, t) :: rest) \ {x} := by
    intro a ha
    rcases Finset.mem_union.1 (varsP_subst1_subset x t rest ha) with h | h
    · rcases Finset.mem_sdiff.1 h with ⟨hm, hn⟩
      exact Finset.mem_sdiff.2
        ⟨by simp [varsP_cons, Finset.mem_union]; right; right; exact hm, hn⟩
    · refine Finset.mem_sdiff.2 ⟨?_, ?_⟩
      · simp [varsP_cons, Finset.mem_union]; right; left; exact h
      · simp only [Finset.mem_singleton]
        intro hax
        exact hocc (hax ▸ h)
  have hx : x ∈ varsP ((Trm.var x, t) :: rest) := by
    simp [varsP_cons, Trm.vars, Finset.mem_union]
  calc (varsP (pairSubst1 x t rest)).card
      ≤ (varsP ((Trm.var x, t) :: rest) \ {x}).card := Finset.card_le_card hsub
    _ < (varsP ((Trm.var x, t) :: rest)).card := by
        rw [Finset.sdiff_singleton_eq_erase]
        exact Finset.card_erase_lt_of_mem hx

/-- Same decrease with the variable on the right. -/
theorem varsP_elim_card_lt_right (x : Nat) (t : Trm) (rest : List (Trm × Trm))
    (hocc : x ∉ t.vars) :
    (varsP (pairSubst1 x t rest)).card <
      (varsP ((t, Trm.var x) :: rest)).card := by
  have h := varsP_elim_card_lt x t rest hocc
  have he : varsP ((t, Trm.var x) :: rest) = varsP ((Trm.var x, t) :: rest) := by
    simp only [varsP_cons]
    rw [Finset.union_comm t.vars]
  rw [he]
  exact h

/-- Syntactic unification of a list of term pairs (Martelli-Montanari with
triangular output).  Returns a most general unifier or `none` when the pairs
are not unifiable. -/
def unify : List (Trm × Trm) → Option (List (Nat × Trm))
  | [] => some []
  | (.var x, .var y) :: rest =>
    if x = y then
      unify rest
    else
      (unify (pairSubst1 x (.var y) rest)).map (fun σ => (x, Trm.var y) :: σ)
  | (.var x, .app g us) :: rest =>
    if x ∈ (Trm.app g us).vars then
      none
    else
      (unify (pairSubst1 x (.app g us) rest)).map (fun σ => (x, Trm.app g us) :: σ)
  | (.app f ts, .var x) :: rest =>
    if x ∈ (Trm.app f ts).vars then
      none
    else
      (unify (pairSubst1 x (.app f ts) rest)).map (fun σ => (x, Trm.app f ts) :: σ)
  | (.app f ts, .app g us) :: rest =>
    if f = g ∧ ts.length = us.length then
      unify (List.zip ts us ++ rest)
    else
      none
termination_by l => ((varsP l).card, sizeP l)
decreasing_by
  · rcases lt_or_eq_of_le (Finset.card_le_card
        (show varsP rest ⊆ varsP ((Trm.var x, Trm.var y) :: rest) by
          simp only [varsP_cons]; exact Finset.subset_union_right)) with h | h
    · exact Prod.Lex.left _ _ h
    · rw [h]
      refine Prod.Lex.right _ ?_
      simp only [sizeP_cons, Trm.size]
      omega
  · exact Prod.Lex.left _ _ (varsP_elim_card_lt x (.var y) rest (by
      simp only [Trm.vars, Finset.mem_singleton]
      intro hx
      exact absurd hx (by assumption)))
  · exact Prod.Lex.left _ _ (varsP_elim_card_lt x (.app g us) rest (by assumption))
  · exact Prod.Lex.left _ _ (varsP_elim_card_lt_right x (.app f ts) rest (by assumption))
  · rcases lt_or_eq_of_le (Finset.card_le_card
        (show varsP (List.zip ts us ++ rest) ⊆
            varsP ((Trm.app f ts, Trm.app g us) :: rest) by
          rw [varsP_append]
          simp only [varsP_cons, Trm.vars]
          intro a ha
          rcases Finset.mem_union.1 ha with h | h
          · rcases Finset.mem_union.1 (varsP_zip_subset ts us h) with h' | h'
            · exact Finset.mem_union_left _ (Finset.mem_union_left _ h')
            · exact Finset.mem_union_left _ (Finset.mem_union_right _ h')
          · exact Finset.mem_union_right _ h)) with h | h
    · exact Prod.Lex.left _ _ h
    · rw [h]
      refine Prod.Lex.right _ ?_
      rw [sizeP_append]
      simp only [sizeP_cons, Trm.size]
      have := sizeP_zip_le ts us
      omega

/-- Apply a triangular substitution, leftmost binding first. -/
def applyS : List (Nat × Trm) → Trm → Trm
  | [], t => t
  | b :: σ, t => applyS σ (Trm.subst1 b.1 b.2 t)

/-- `σ` unifies every pair of the list. -/
def unifiesP (σ : List (Nat × Trm)) (l : List (Trm × Trm)) : Prop :=
  ∀ p ∈ l, applyS σ p.1 = applyS σ p.2

/-- `σ` is a most general unifier of the pairs: it unifies them and every
unifier factors through it. -/
def isMgu (σ : List (Nat × Trm)) (l : List (Trm × Trm)) : Prop :=
  unifiesP σ l ∧
    ∀ τ, unifiesP τ l → ∀ u, applyS τ (applyS σ u) = applyS τ u

/-! ## The literal index (Indexing/LiteralSubstitutionTree.hpp) -/

/-- A literal: predicate id, polarity, arguments. -/
structure Lit where
  pred : Nat
  pol : Bool
  args : List Trm

/-- Apply a substitution to a literal. -/
def applyLit (σ : List (Nat × Trm)) (l : Lit) : Lit :=
  ⟨l.pred, l.pol, l.args.map (applyS σ)⟩

/-- A most general unifier of two literals exists. -/
def litMguExists (l q : Lit) : Prop :=
  ∃ σ, applyLit σ l = applyLit σ q ∧
    ∀ τ, applyLit τ l = applyLit τ q → ∀ u, applyS τ (applyS σ u) = applyS τ u

/-- Decidable unifiability of the atoms of two literals. -/
def litUnifiable (l q : Lit) : Bool :=
  decide (l.pred = q.pred) && decide (l.args.length = q.args.length) &&
    (unify (List.zip l.args q.args)).isSome

/-- The query literal after the `complementary` flag is applied. -/
def complQuery (q : Lit) (complementary : Bool) : Lit :=
  if complementary then ⟨q.pred, !q.pol, q.args⟩ else q

/-- Modelled from the spec: the body of
LiteralSubstitutionTree::getUnifications is not among the source files in
scope (Indexing/LiteralSubstitutionTree.hpp only declares it).  Per the spec,
the index holds the inserted leaf data `(literal, clause)` and the iterator
"enumerates stored literals unifiable with lit" (complementary polarity when
the flag is set), yielding each matching datum exactly once, in an order
deterministic under a fixed insertion history.  The stored list is the
insertion history; retrieval filters it in order. -/
def getUnifications (stored : List (Lit × Nat)) (q : Lit) (complementary : Bool) :
    List (Lit × Nat) :=
  stored.filter (fun d =>
    d.1.pol == (complQuery q complementary).pol && litUnifiable d.1 q)

/-! ## Concrete instances used by witnesses and counterexamples -/

/-- A trivial oracle set over a unit world: no new clauses, no time limit,
passive always empty, nothing flushed pending. -/
def trivOracles : Oracles Unit Unit :=
  { opts := ⟨1, 1, 0, true⟩
  , newClauses := fun w => ([], w)
  , forwardSimplify := fun _ w => (true, w)
  , backwardSimplify := fun _ w => w
  , addToPassive := fun _ w => (true, w)
  , simplContAdd := fun _ w => w
  , setStoreNone := fun _ w => w
  , timeLimitReached := fun _ => false
  , elapsedMs := fun _ => 0
  , activeClauses := fun _ => 0
  , limits := fun _ => ⟨false, false⟩
  , updateLimits := fun _ w => w
  , onAllProcessed := fun w => w
  , clausesFlushed := fun _ => true
  , passiveIsEmpty := fun _ => true
  , popSelected := fun w => ((), w)
  , activate := fun _ w => (true, w)
  , handleUnsuccessfulActivation := fun _ w => w }

/-- A signature with array store (functor 0) and select (functor 1). -/
def sigCX : Signature :=
  { interp := fun f =>
      if f = 0 then some .arrayStore else if f = 1 then some .arraySelect else none
  , termAlgebraCons := fun _ => false
  , destructor := fun _ _ => 0
  , fnOf := fun i => if i = .arraySelect then 1 else 99
  , dtorOf := fun _ => none }

/-- The context store(x0, x1, x2) inverted at position 2 against x3. -/
def ctxCX : InversionContext := ⟨0, [.var 0, .var 1, .var 2], 2, .var 3⟩

/-- The inverse select(x3, x1) produced for ctxCX. -/
def rCX : Trm := .app 1 [.var 3, .var 1]

/-- x0 is the constant-0 array, x3 the constant-1 array, x1 the index 0. -/
def rhoCX : Nat → Val := fun n =>
  if n = 0 then .arr [] (.num 0)
  else if n = 3 then .arr [] (.num 1)
  else .num 0

def iotaCX : Nat → List Val → Val := fun _ _ => .undefV

/-- A signature with integer add (functor 0) and minus (functor 1). -/
def sigA : Signature :=
  { interp := fun f =>
      if f = 0 then some (.add .int) else if f = 1 then some (.minus .int) else none
  , termAlgebraCons := fun _ => false
  , destructor := fun _ _ => 0
  , fnOf := fun i => if i = .add .int then 0 else if i = .minus .int then 1 else 99
  , dtorOf := fun _ => none }

/-- The context x0 + x1 inverted at position 0 against x2. -/
def ctxA : InversionContext := ⟨0, [.var 0, .var 1], 0, .var 2⟩

/-- The inverse x2 + (-x1) produced for ctxA. -/
def rA : Trm := .app 0 [.var 2, .app 1 [.var 1]]

def rhoA : Nat → Val := fun _ => .num 1

/-! ## Theorems: the LRS reachability estimate -/

/-- C2: estimatedReachableCount returns -1 while timeSpent < firstCheck;
past that point it returns -1 when timeLeft ≤ 0 or at most 10 clauses were
activated, and otherwise the truncated integer quotient
processed * timeLeft / timeSpent; with positive readings the result never
exceeds that quotient. -/
theorem estimatedReachableCount_eq (e : EstEnv) :
    estimatedReachableCount e =
      if timeSpentOf e < firstCheckOf e then some (-1)
      else if timeLeftOf e ≤ 0 ∨ e.activeClauses ≤ 10 then some (-1)
      else if timeSpentOf e = 0 then none
      else some (Int.tdiv (e.activeClauses * timeLeftOf e) (timeSpentOf e)) := rfl

theorem estimatedReachableCount_spec (e : EstEnv) :
    (timeSpentOf e < firstCheckOf e → estimatedReachableCount e = some (-1)) ∧
    (firstCheckOf e ≤ timeSpentOf e →
      (timeLeftOf e ≤ 0 ∨ e.activeClauses ≤ 10) →
      estimatedReachableCount e = some (-1)) ∧
    (firstCheckOf e ≤ timeSpentOf e → 0 < timeLeftOf e → 10 < e.activeClauses →
      timeSpentOf e ≠ 0 →
      estimatedReachableCount e =
        some (Int.tdiv (e.activeClauses * timeLeftOf e) (timeSpentOf e))) ∧
    (∀ v, estimatedReachableCount e = some v →
      0 < timeLeftOf e → 10 < e.activeClauses → 0 < timeSpentOf e →
      v ≤ Int.tdiv (e.activeClauses * timeLeftOf e) (timeSpentOf e)) := by
  rw [estimatedReachableCount_eq]
  refine ⟨?_, ?_, ?_, ?_⟩
  · intro h
    rw [if_pos h]
  · intro h1 h2
    rw [if_neg (not_lt.2 h1), if_pos h2]
  · intro h1 h2 h3 h4
    rw [if_neg (not_lt.2 h1), if_neg (by push_neg; exact ⟨h2, h3⟩), if_neg h4]
  · intro v hv h1 h2 h3
    have hnn : (0:Int) ≤ Int.tdiv (e.activeClauses * timeLeftOf e) (timeSpentOf e) :=
      Int.tdiv_nonneg (by positivity) (le_of_lt h3)
    by_cases ha : timeSpentOf e < firstCheckOf e
    · rw [if_pos ha] at hv
      simp only [Option.some.injEq] at hv
      omega
    · rw [if_neg ha, if_neg (by push_neg; exact ⟨h1, h2⟩), if_neg (by omega)] at hv
      simp only [Option.some.injEq] at hv
      omega

/-- Scenario S6 of the spec, checked concretely: 10-decisecond budget,
firstCheck 10 percent, readings at 500 ms with 1000 activated clauses give
the estimate 1000. -/
theorem estimatedReachableCount_s6 :
    estimatedReachableCount ⟨⟨10, 10, 0, true⟩, 1000, 500, 0⟩ = some 1000 := by
  decide

/-- C10: the only guard before the final division is timeSpent < firstCheck,
so whenever firstCheck ≥ 1 the divisor is positive and the call is division
safe; when firstCheck = 0 a call with zero elapsed time, more than 10 active
clauses and positive timeLeft through simulatedTimeLimit reaches the division
with divisor zero. -/
theorem estimatedReachableCount_div_guard :
    (∀ e : EstEnv, 1 ≤ firstCheckOf e → estimatedReachableCount e ≠ none) ∧
    estimatedReachableCount ⟨⟨0, 0, 5, true⟩, 20, 0, 0⟩ = none := by
  constructor
  · intro e h
    rw [estimatedReachableCount_eq]
    split_ifs with ha hb hc
    · simp
    · simp
    · exact absurd hc (by simp only [timeSpentOf, firstCheckOf] at *; omega)
    · simp
  · decide

/-! ## Theorems: the LRS limit-update cadence -/

/-- C6: shouldUpdateLimits increments its counter on every call and returns
true, resetting the counter, exactly when the incremented counter reaches 500
or a limit is already active and the incremented counter exceeds 50;
otherwise it returns false and keeps the incremented counter. -/
theorem shouldUpdateLimits_spec (lims : Limits) (cnt : Nat) :
    ((shouldUpdateLimits lims cnt).1 = true ↔
      ((cnt + 1) % 4294967296 = 500 ∨
        ((lims.weightLimited = true ∨ lims.ageLimited = true) ∧
          50 < (cnt + 1) % 4294967296))) ∧
    ((shouldUpdateLimits lims cnt).1 = true →
      (shouldUpdateLimits lims cnt).2 = 0) ∧
    ((shouldUpdateLimits lims cnt).1 = false →
      (shouldUpdateLimits lims cnt).2 = (cnt + 1) % 4294967296) := by
  simp only [shouldUpdateLimits]
  split_ifs with h
  · simp [h]
  · simp [h]

/-! ## Theorems: the doSaturation loop -/

/-- The only early return of the inner loop body is the time limit. -/
theorem innerStep_inl {W C : Type} (o : Oracles W C) (s : LoopState W C)
    (c : C) (rest : List C) (r : SatResult)
    (h : innerStep o s c rest = some (.inl r)) : r = SatResult.timeLimit := by
  simp only [innerStep] at h
  split_ifs at h with h1 h2
  · simp only [Option.some.injEq, Sum.inl.injEq] at h
    exact h.symm
  · split at h
    · exact absurd h (by simp)
    · split_ifs at h <;> simp at h
  · simp at h

/-- One inner loop body pass never turns the complete flag back on. -/
theorem innerStep_complete {W C : Type} (o : Oracles W C) (s : LoopState W C)
    (c : C) (rest : List C) (s' : LoopState W C)
    (h : innerStep o s c rest = some (.inr s')) :
    s'.complete = true → s.complete = true := by
  intro hc
  simp only [innerStep] at h
  split_ifs at h with h1 h2
  · simp at h
  · split at h
    · exact absurd h (by simp)
    · split_ifs at h with h3
      · simp only [Option.some.injEq, Sum.inr.injEq] at h
        rw [← h] at hc
        simp only [limitUpdateStep] at hc
        by_cases hb : s.complete = true
        · exact hb
        · rw [if_neg hb] at hc
          exact hc
      · simp only [Option.some.injEq, Sum.inr.injEq] at h
        rw [← h] at hc
        exact hc
  · simp only [Option.some.injEq, Sum.inr.injEq] at h
    rw [← h] at hc
    exact hc

/-- The inner loop never turns the complete flag back on. -/
theorem innerLoop_complete {W C : Type} (o : Oracles W C) (fuel : Nat)
    (s s' : LoopState W C) (h : innerLoop o fuel s = some (.inr s')) :
    s'.complete = true → s.complete = true := by
  induction fuel generalizing s with
  | zero =>
    intro hc
    simp only [innerLoop] at h
    split at h
    · simp only [Option.some.injEq, Sum.inr.injEq] at h
      rw [← h] at hc
      exact hc
    · exact absurd h (by simp)
  | succ fuel ih =>
    intro hc
    rw [innerLoop] at h
    split at h
    · simp only [Option.some.injEq, Sum.inr.injEq] at h
      rw [← h] at hc
      exact hc
    · rename_i c rest heq
      rcases hm : innerStep o s c rest with _ | v
      · rw [hm] at h
        exact absurd h (by simp)
      · rw [hm] at h
        rcases v with r | s2
        · simp at h
        · exact innerStep_complete o s c rest s2 hm (ih s2 h hc)

/-- The inner loop returns early only with the time limit. -/
theorem innerLoop_inl {W C : Type} (o : Oracles W C) (fuel : Nat)
    (s : LoopState W C) (r : SatResult)
    (h : innerLoop o fuel s = some (.inl r)) : r = SatResult.timeLimit := by
  induction fuel generalizing s with
  | zero =>
    simp only [innerLoop] at h
    split at h
    · simp at h
    · simp at h
  | succ fuel ih =>
    rw [innerLoop] at h
    split at h
    · simp at h
    · rename_i c rest heq
      rcases hm : innerStep o s c rest with _ | v
      · rw [hm] at h
        simp at h
      · rw [hm] at h
        rcases v with r' | s2
        · simp only [Option.some.injEq, Sum.inl.injEq] at h
          rw [← h]
          exact innerStep_inl o s c rest r' hm
        · exact ih s2 h

/-- C1: when doSaturation reaches a loop state with the unprocessed container
drained, onAllProcessed producing no new clauses and the passive container
empty, it returns Satisfiable exactly if the complete flag holds at that
moment, and RefutationNotFound otherwise. -/
theorem doSaturation_exhaustion (W C : Type) (o : Oracles W C) (fuel : Nat)
    (s : LoopState W C)
    (h1 : s.unprocessed = [])
    (h2 : (o.newClauses s.world).1 = [])
    (h3 : o.clausesFlushed (o.onAllProcessed (o.newClauses s.world).2) = true)
    (h4 : o.passiveIsEmpty (o.onAllProcessed (o.newClauses s.world).2) = true) :
    outerLoop o (fuel + 1) s =
      some (if s.complete then SatResult.satisfiable
            else SatResult.refutationNotFound) := by
  rw [outerLoop]
  have hs1 : innerLoop o fuel
      { s with world := (o.newClauses s.world).2,
               unprocessed := s.unprocessed ++ (o.newClauses s.world).1 } =
      some (.inr { s with world := (o.newClauses s.world).2,
                          unprocessed := s.unprocessed ++ (o.newClauses s.world).1 }) := by
    rw [innerLoop]
    simp [h1, h2]
  simp only [hs1, h3, h4]
  simp

/-- Witness for C1 at the trivial oracles. -/
theorem doSaturation_exhaustion_witness :
    outerLoop trivOracles 1 ⟨(), [], true, 0, 0⟩ = some SatResult.satisfiable := by
  have h := doSaturation_exhaustion Unit Unit trivOracles 0 ⟨(), [], true, 0, 0⟩
    rfl rfl rfl rfl
  simpa using h

/-- C5: after a limit update that left a limit active the complete flag is
false; the loop never turns the flag back on; and from any state with the
flag off the loop cannot return Satisfiable. -/
theorem lrs_complete_flag :
    (∀ (W C : Type) (o : Oracles W C) (w : W) (b : Bool) (est : Int),
      ((o.limits (limitUpdateStep o w b est).1).weightLimited = true ∨
        (o.limits (limitUpdateStep o w b est).1).ageLimited = true) →
      (limitUpdateStep o w b est).2 = false) ∧
    (∀ (W C : Type) (o : Oracles W C) (fuel : Nat) (s s' : LoopState W C),
      innerLoop o fuel s = some (.inr s') → s'.complete = true →
        s.complete = true) ∧
    (∀ (W C : Type) (o : Oracles W C) (fuel : Nat) (s : LoopState W C),
      s.complete = false → outerLoop o fuel s ≠ some SatResult.satisfiable) := by
  refine ⟨?_, ?_, ?_⟩
  · intro W C o w b est hl
    simp only [limitUpdateStep] at *
    by_cases hb : b = true
    · rw [if_pos hb]
      rcases hl with h | h <;> simp [h]
    · rw [if_neg hb]
      simpa using hb
  · intro W C o fuel s s' h
    exact innerLoop_complete o fuel s s' h
  · intro W C o fuel
    induction fuel with
    | zero =>
      intro s hc
      simp [outerLoop]
    | succ fuel ih =>
      intro s hc
      rw [outerLoop]
      rcases hil : innerLoop o fuel
          { s with world := (o.newClauses s.world).2,
                   unprocessed := s.unprocessed ++ (o.newClauses s.world).1 }
        with _ | v
      · simp
      · rcases v with r | s2
        · intro heq
          simp only [Option.some.injEq] at heq
          have := innerLoop_inl o fuel _ r hil
          rw [this] at heq
          exact SatResult.noConfusion heq
        · have hs2 : s2.complete = false := by
            by_contra hb
            have hb' : s2.complete = true := by
              cases hcc : s2.complete
              · exact absurd hcc hb
              · rfl
            have := innerLoop_complete o fuel _ s2 hil hb'
            simp only at this
            rw [hc] at this
            exact Bool.noConfusion this
          dsimp only
          split_ifs <;>
            first
              | (refine ih _ ?_; exact hs2)
              | simp_all

/-! ## Theorems: the portfolio scheduler -/

/-- C8: runSchedule processes slices in order, skips slices whose code is
remembered, runs others with budget min(sliceTime, remaining), returns true
on the first success, remembers failed codes, and returns false when no
slice succeeds. -/
theorem runSchedule_spec :
    (∀ (rs : String → Nat → Bool) (b : Nat) (rem : List String),
      runSchedule rs [] b rem = false) ∧
    (∀ (rs : String → Nat → Bool) (s : Slice) (rest : List Slice) (b : Nat)
        (rem : List String), s.code ∈ rem →
      runSchedule rs (s :: rest) b rem = runSchedule rs rest b rem) ∧
    (∀ (rs : String → Nat → Bool) (s : Slice) (rest : List Slice) (b : Nat)
        (rem : List String), s.code ∉ rem → rs s.code (min s.sliceTime b) = true →
      runSchedule rs (s :: rest) b rem = true) ∧
    (∀ (rs : String → Nat → Bool) (s : Slice) (rest : List Slice) (b : Nat)
        (rem : List String), s.code ∉ rem → rs s.code (min s.sliceTime b) = false →
      runSchedule rs (s :: rest) b rem = runSchedule rs rest b (s.code :: rem)) ∧
    (∀ (rs : String → Nat → Bool) (slices : List Slice) (b : Nat)
        (rem : List String), (∀ code t, rs code t = false) →
      runSchedule rs slices b rem = false) := by
  refine ⟨?_, ?_, ?_, ?_, ?_⟩
  · intro rs b rem
    rfl
  · intro rs s rest b rem h
    simp [runSchedule, h]
  · intro rs s rest b rem h hs
    simp [runSchedule, h, hs]
  · intro rs s rest b rem h hs
    simp [runSchedule, h, hs]
  · intro rs slices b rem hall
    induction slices generalizing rem with
    | nil => rfl
    | cons s rest ih =>
      by_cases h : s.code ∈ rem
      · rw [show runSchedule rs (s :: rest) b rem = runSchedule rs rest b rem by
          simp [runSchedule, h]]
        exact ih rem
      · rw [show runSchedule rs (s :: rest) b rem =
            runSchedule rs rest b (s.code :: rem) by
          simp [runSchedule, h, hall]]
        exact ih (s.code :: rem)

/-! ## Theorems: canInvertTop -/

/-- C3: canInvertTop is true exactly for interpreted add and minus, for
Rat/Real mul with a non-zero constant of the sort on the other side, for Int
mul with the constant 1 or -1 on the other side, for array store at argument
position 2, and for term-algebra constructors; every other head is rejected. -/
theorem canInvertTop_spec (sig : Signature) (ctx : InversionContext) :
    canInvertTop sig ctx = true ↔
      ((∃ s, sig.interp ctx.topFun = some (.add s)) ∨
       (∃ s, sig.interp ctx.topFun = some (.minus s)) ∨
       (sig.interp ctx.topFun = some (.mul .rat) ∧
         ∃ q, tryInterpretConstantRat sig (otherArg ctx) = some q ∧ q ≠ 0) ∨
       (sig.interp ctx.topFun = some (.mul .real) ∧
         ∃ q, tryInterpretConstantReal sig (otherArg ctx) = some q ∧ q ≠ 0) ∨
       (sig.interp ctx.topFun = some (.mul .int) ∧
         (tryInterpretConstantInt sig (otherArg ctx) = some 1 ∨
          tryInterpretConstantInt sig (otherArg ctx) = some (-1))) ∨
       (sig.interp ctx.topFun = some .arrayStore ∧ ctx.topIdx = 2) ∨
       (sig.interp ctx.topFun = none ∧ sig.termAlgebraCons ctx.topFun = true)) := by
  rcases hi : sig.interp ctx.topFun with _ | i
  · simp [canInvertTop, hi]
  · cases i with
    | add s => simp [canInvertTop, hi]
    | minus s => simp [canInvertTop, hi]
    | mul s =>
      cases s with
      | int =>
        simp only [canInvertTop, hi, canInvertMulInt, tryInvertMulInt]
        rcases hc : tryInterpretConstantInt sig (otherArg ctx) with _ | a
        · simp [hc, hi]
        · by_cases h1 : a = 1
          · simp [hc, hi, h1]
          · by_cases h2 : a = -1
            · simp [hc, hi, h1, h2]
            · simp [hc, hi, h1, h2]
      | rat =>
        simp only [canInvertTop, hi, nonZeroRat]
        rcases hc : tryInterpretConstantRat sig (otherArg ctx) with _ | q
        · simp [hc, hi]
        · by_cases hq : q = 0 <;> simp [hc, hi, hq]
      | real =>
        simp only [canInvertTop, hi, nonZeroReal]
        rcases hc : tryInterpretConstantReal sig (otherArg ctx) with _ | q
        · simp [hc, hi]
        · by_cases hq : q = 0 <;> simp [hc, hi, hq]
    | div s => simp [canInvertTop, hi]
    | numI z => simp [canInvertTop, hi]
    | numQ q => simp [canInvertTop, hi]
    | numR q => simp [canInvertTop, hi]
    | arrayStore => simp [canInvertTop, hi]
    | arraySelect => simp [canInvertTop, hi]
    | otherI k => simp [canInvertTop, hi]

/-- C9: under the precondition canInvertTop, invertTop produces a term (no
assertion can fail), and integer-mul invertibility and conversion are decided
by the same helper tryInvertMulInt. -/
theorem invertTop_total (sig : Signature) (ctx : InversionContext)
    (h : canInvertTop sig ctx = true) :
    canInvertMulInt sig ctx = (tryInvertMulInt sig ctx).isSome ∧
    ∃ r, invertTop sig ctx = some r := by
  refine ⟨rfl, ?_⟩
  rw [invertTop, if_pos h]
  suffices hs : (invertTopRaw sig ctx).isSome = true by
    exact Option.isSome_iff_exists.mp hs
  rcases hi : sig.interp ctx.topFun with _ | i
  · simp only [canInvertTop, hi] at h
    simp [invertTopRaw, hi, h]
  · cases i with
    | add s => simp [invertTopRaw, hi]
    | minus s => simp [invertTopRaw, hi]
    | mul s =>
      cases s with
      | int =>
        simp only [canInvertTop, hi] at h
        simpa [invertTopRaw, hi, canInvertMulInt] using h
      | rat => simp [invertTopRaw, hi]
      | real => simp [invertTopRaw, hi]
    | div s => simp only [canInvertTop, hi] at h; exact absurd h (by simp)
    | numI z => simp only [canInvertTop, hi] at h; exact absurd h (by simp)
    | numQ q => simp only [canInvertTop, hi] at h; exact absurd h (by simp)
    | numR q => simp only [canInvertTop, hi] at h; exact absurd h (by simp)
    | arrayStore =>
      simp only [canInvertTop, hi] at h
      simp only [beq_iff_eq] at h
      simp [invertTopRaw, hi, h]
    | arraySelect => simp only [canInvertTop, hi] at h; exact absurd h (by simp)
    | otherI k => simp only [canInvertTop, hi] at h; exact absurd h (by simp)

/-- Witness for C9 at the integer addition context x0 + x1 against x2. -/
theorem invertTop_total_witness :
    canInvertMulInt sigA ctxA = (tryInvertMulInt sigA ctxA).isSome ∧
    ∃ r, invertTop sigA ctxA = some r :=
  invertTop_total sigA ctxA rfl

/-! ## Theorems: the inverter round trip -/

theorem evalL_eq_map (sig : Signature) (ρ : Nat → Val) (ι : Nat → List Val → Val)
    (ts : List Trm) : evalL sig ρ ι ts = ts.map (eval sig ρ ι) := by
  induction ts with
  | nil => rfl
  | cons t ts ih => simp [evalL, ih]

theorem evalL_getD (sig : Signature) (ρ : Nat → Val) (ι : Nat → List Val → Val)
    (ts : List Trm) (i : Nat) (hi : i < ts.length) :
    (evalL sig ρ ι ts).getD i Val.undefV = eval sig ρ ι (ts.getD i (Trm.var 0)) := by
  rw [evalL_eq_map]
  rw [List.getD_eq_getElem?_getD, List.getD_eq_getElem?_getD]
  rw [List.getElem?_eq_getElem (by simpa using hi), List.getElem?_eq_getElem hi]
  simp

theorem eval_of_constInt (sig : Signature) (ρ : Nat → Val)
    (ι : Nat → List Val → Val) (t : Trm) (z : Int)
    (h : tryInterpretConstantInt sig t = some z) :
    eval sig ρ ι t = .num (z : ℚ) := by
  rcases t with n | ⟨f, args⟩
  · simp [tryInterpretConstantInt] at h
  · rcases args with _ | ⟨a, as⟩
    · rcases hf : sig.interp f with _ | i
      · simp [tryInterpretConstantInt, hf] at h
      · cases i
        case numI z' =>
          simp only [tryInterpretConstantInt, hf, Option.some.injEq] at h
          subst h
          simp [eval, evalL, interpApp, hf]
        all_goals simp [tryInterpretConstantInt, hf] at h
    · simp [tryInterpretConstantInt] at h

theorem eval_of_constRat (sig : Signature) (ρ : Nat → Val)
    (ι : Nat → List Val → Val) (t : Trm) (q : ℚ)
    (h : tryInterpretConstantRat sig t = some q) :
    eval sig ρ ι t = .num q := by
  rcases t with n | ⟨f, args⟩
  · simp [tryInterpretConstantRat] at h
  · rcases args with _ | ⟨a, as⟩
    · rcases hf : sig.interp f with _ | i
      · simp [tryInterpretConstantRat, hf] at h
      · cases i
        case numQ q' =>
          simp only [tryInterpretConstantRat, hf, Option.some.injEq] at h
          subst h
          simp [eval, evalL, interpApp, hf]
        all_goals simp [tryInterpretConstantRat, hf] at h
    · simp [tryInterpretConstantRat] at h

theorem eval_of_constReal (sig : Signature) (ρ : Nat → Val)
    (ι : Nat → List Val → Val) (t : Trm) (q : ℚ)
    (h : tryInterpretConstantReal sig t = some q) :
    eval sig ρ ι t = .num q := by
  rcases t with n | ⟨f, args⟩
  · simp [tryInterpretConstantReal] at h
  · rcases args with _ | ⟨a, as⟩
    · rcases hf : sig.interp f with _ | i
      · simp [tryInterpretConstantReal, hf] at h
      · cases i
        case numR q' =>
          simp only [tryInterpretConstantReal, hf, Option.some.injEq] at h
          subst h
          simp [eval, evalL, interpApp, hf]
        all_goals simp [tryInterpretConstantReal, hf] at h
    · simp [tryInterpretConstantReal] at h

theorem inv_add_case (sig : Signature) (F : Nat) (a0 a1 w r : Trm) (i : Nat)
    (s : NumSort) (ρ : Nat → Val) (ι : Nat → List Val → Val)
    (hr : invertTop sig ⟨F, [a0, a1], i, w⟩ = some r)
    (hi : sig.interp F = some (.add s)) (hidx : i < 2)
    (cohA : sig.interp (sig.fnOf (.add s)) = some (.add s))
    (cohM : sig.interp (sig.fnOf (.minus s)) = some (.minus s))
    (qw qo : ℚ) (hw : eval sig ρ ι w = .num qw)
    (ho : eval sig ρ ι (otherArg ⟨F, [a0, a1], i, w⟩) = .num qo) :
    eval sig ρ ι (substTopArg ⟨F, [a0, a1], i, w⟩ r) = eval sig ρ ι w := by
  rw [invertTop] at hr
  split_ifs at hr with hc
  simp only [invertTopRaw, hi, Option.some.injEq] at hr
  subst hr
  interval_cases i
  · simp [otherArg] at ho
    simp [substTopArg, otherArg, eval, evalL, interpApp, hi, cohA, cohM, hw, ho, vadd, vneg]
  · simp [otherArg] at ho
    simp [substTopArg, otherArg, eval, evalL, interpApp, hi, cohA, cohM, hw, ho, vadd, vneg]

theorem inv_minus_case (sig : Signature) (F : Nat) (a0 w r : Trm)
    (s : NumSort) (ρ : Nat → Val) (ι : Nat → List Val → Val)
    (hr : invertTop sig ⟨F, [a0], 0, w⟩ = some r)
    (hi : sig.interp F = some (.minus s))
    (cohM : sig.interp (sig.fnOf (.minus s)) = some (.minus s))
    (qw : ℚ) (hw : eval sig ρ ι w = .num qw) :
    eval sig ρ ι (substTopArg ⟨F, [a0], 0, w⟩ r) = eval sig ρ ι w := by
  rw [invertTop] at hr
  split_ifs at hr with hc
  simp only [invertTopRaw, hi, Option.some.injEq] at hr
  subst hr
  simp [substTopArg, eval, evalL, interpApp, hi, cohM, hw, vneg]

theorem inv_mul_frac_case (sig : Signature) (F : Nat) (a0 a1 w r : Trm)
    (i : Nat) (s : NumSort) (ρ : Nat → Val) (ι : Nat → List Val → Val)
    (hr : invertTop sig ⟨F, [a0, a1], i, w⟩ = some r)
    (hfr : s = NumSort.rat ∨ s = NumSort.real)
    (hi : sig.interp F = some (.mul s)) (hidx : i < 2)
    (cohMul : sig.interp (sig.fnOf (.mul s)) = some (.mul s))
    (cohDiv : sig.interp (sig.fnOf (.div s)) = some (.div s))
    (cohOne : sig.interp (sig.fnOf (numOne s)) = some (numOne s))
    (qw : ℚ) (hw : eval sig ρ ι w = .num qw) :
    eval sig ρ ι (substTopArg ⟨F, [a0, a1], i, w⟩ r) = eval sig ρ ι w := by
  rw [invertTop] at hr
  split_ifs at hr with hc
  rcases hfr with hs | hs <;> subst hs
  · simp only [numOne] at cohOne
    simp only [canInvertTop, hi, nonZeroRat] at hc
    rcases hq : tryInterpretConstantRat sig (otherArg ⟨F, [a0, a1], i, w⟩) with _ | qc
    · rw [hq] at hc
      simp at hc
    · rw [hq] at hc
      simp only [decide_eq_true_eq] at hc
      have ho := eval_of_constRat sig ρ ι _ qc hq
      simp only [invertTopRaw, hi, Option.some.injEq] at hr
      subst hr
      interval_cases i
      · simp [otherArg] at ho
        simp [substTopArg, otherArg, eval, evalL, interpApp, hi, cohMul, cohDiv,
          cohOne, numOne, hw, ho, vmul, vdiv]
        field_simp
      · simp [otherArg] at ho
        simp [substTopArg, otherArg, eval, evalL, interpApp, hi, cohMul, cohDiv,
          cohOne, numOne, hw, ho, vmul, vdiv]
        field_simp
  · simp only [numOne] at cohOne
    simp only [canInvertTop, hi, nonZeroReal] at hc
    rcases hq : tryInterpretConstantReal sig (otherArg ⟨F, [a0, a1], i, w⟩) with _ | qc
    · rw [hq] at hc
      simp at hc
    · rw [hq] at hc
      simp only [decide_eq_true_eq] at hc
      have ho := eval_of_constReal sig ρ ι _ qc hq
      simp only [invertTopRaw, hi, Option.some.injEq] at hr
      subst hr
      interval_cases i
      · simp [otherArg] at ho
        simp [substTopArg, otherArg, eval, evalL, interpApp, hi, cohMul, cohDiv,
          cohOne, numOne, hw, ho, vmul, vdiv]
        field_simp
      · simp [otherArg] at ho
        simp [substTopArg, otherArg, eval, evalL, interpApp, hi, cohMul, cohDiv,
          cohOne, numOne, hw, ho, vmul, vdiv]
        field_simp

theorem inv_mul_int_case (sig : Signature) (F : Nat) (a0 a1 w r : Trm)
    (i : Nat) (ρ : Nat → Val) (ι : Nat → List Val → Val)
    (hr : invertTop sig ⟨F, [a0, a1], i, w⟩ = some r)
    (hi : sig.interp F = some (.mul .int)) (hidx : i < 2)
    (cohMul : sig.interp (sig.fnOf (.mul .int)) = some (.mul .int))
    (qw : ℚ) (hw : eval sig ρ ι w = .num qw) :
    eval sig ρ ι (substTopArg ⟨F, [a0, a1], i, w⟩ r) = eval sig ρ ι w := by
  rw [invertTop] at hr
  split_ifs at hr with hc
  simp only [invertTopRaw, hi] at hr
  simp only [tryInvertMulInt] at hr
  rcases ha : tryInterpretConstantInt sig (otherArg ⟨F, [a0, a1], i, w⟩) with _ | a
  · rw [ha] at hr
    exact Option.noConfusion hr
  · rw [ha] at hr
    dsimp only at hr
    have ho := eval_of_constInt sig ρ ι _ a ha
    by_cases h1 : a = 1
    · rw [if_pos h1] at hr
      simp only [Option.some.injEq] at hr
      subst hr
      subst h1
      interval_cases i
      · simp [otherArg] at ho
        simp [substTopArg, eval, evalL, interpApp, hi, hw, ho, vmul]
      · simp [otherArg] at ho
        simp [substTopArg, eval, evalL, interpApp, hi, hw, ho, vmul]
    · rw [if_neg h1] at hr
      by_cases h2 : a = -1
      · rw [if_pos h2] at hr
        simp only [Option.some.injEq] at hr
        subst hr
        subst h2
        interval_cases i
        · simp [otherArg] at ho
          simp [substTopArg, otherArg, eval, evalL, interpApp, hi, cohMul, hw, ho, vmul]
        · simp [otherArg] at ho
          simp [substTopArg, otherArg, eval, evalL, interpApp, hi, cohMul, hw, ho, vmul]
      · rw [if_neg h2] at hr
        exact Option.noConfusion hr

theorem inv_store_case (sig : Signature) (F : Nat) (a0 a1 a2 w r : Trm)
    (ρ : Nat → Val) (ι : Nat → List Val → Val)
    (hr : invertTop sig ⟨F, [a0, a1, a2], 2, w⟩ = some r)
    (hi : sig.interp F = some .arrayStore)
    (cohSel : sig.interp (sig.fnOf .arraySelect) = some .arraySelect)
    (heq : eval sig ρ ι (.app F [a0, a1, a2]) = eval sig ρ ι w)
    (es : List (ℚ × Val)) (d : Val) (ha : eval sig ρ ι a0 = .arr es d)
    (qi : ℚ) (hqi : eval sig ρ ι a1 = .num qi) :
    eval sig ρ ι a2 = eval sig ρ ι r := by
  rw [invertTop] at hr
  split_ifs at hr with hc
  simp only [invertTopRaw, hi, Option.some.injEq] at hr
  norm_num at hr
  subst hr
  have hw' : eval sig ρ ι w = .arr ((qi, eval sig ρ ι a2) :: es) d := by
    rw [← heq]
    simp [eval, evalL, interpApp, hi, ha, hqi, vstore]
  simp [eval, evalL, interpApp, cohSel, hw', hqi, vselect, findEntry]

theorem inv_ta_case (sig : Signature) (F : Nat) (args : List Trm) (w r : Trm)
    (i : Nat) (ρ : Nat → Val) (ι : Nat → List Val → Val)
    (hr : invertTop sig ⟨F, args, i, w⟩ = some r)
    (hno : sig.interp F = none)
    (hta : sig.termAlgebraCons F = true)
    (hidx : i < args.length)
    (cohD1 : sig.interp (sig.destructor F i) = none)
    (cohD2 : sig.termAlgebraCons (sig.destructor F i) = false)
    (cohD3 : sig.dtorOf (sig.destructor F i) = some (F, i))
    (heq : eval sig ρ ι (.app F args) = eval sig ρ ι w) :
    eval sig ρ ι (args.getD i (Trm.var 0)) = eval sig ρ ι r := by
  rw [invertTop] at hr
  split_ifs at hr with hc
  simp only [invertTopRaw, hno, hta, if_true, Option.some.injEq] at hr
  subst hr
  have hw' : eval sig ρ ι w = .freeC F (evalL sig ρ ι args) := by
    rw [← heq]
    simp [eval, evalL, interpApp, hno, hta]
  simp only [eval, evalL, interpApp, cohD1, cohD2, cohD3, hw']
  rw [evalL_getD sig ρ ι args i hidx]
  simp

/-- C4 counterexample: for the context store(x0, x1, x2) inverted at position
2 against x3, with x0 the constant-0 array, x1 the index 0 and x3 the
constant-1 array, canInvertTop holds and invertTop returns select(x3, x1),
but substituting that result for the position-2 argument does not make the
store term evaluate to x3: the two sides differ (already at index 5). -/
theorem invertTop_store_no_roundtrip :
    canInvertTop sigCX ctxCX = true ∧
    invertTop sigCX ctxCX = some rCX ∧
    eval sigCX rhoCX iotaCX (substTopArg ctxCX rCX) ≠
      eval sigCX rhoCX iotaCX ctxCX.toWrap := by
  refine ⟨rfl, rfl, ?_⟩
  intro h
  have h2 : Val.arr [((0 : ℚ), Val.num 1)] (Val.num 0) = Val.arr [] (Val.num 1) := h
  injection h2 with h3 h4
  exact List.noConfusion h3

/-- C4 (amended): with canInvertTop true, invertTop's result is an exact
inverse for the arithmetic heads — substituting it for the topIdx-th argument
makes the top term evaluate to toWrap, given in-range positions and numeric
values — while for array store at position 2 and for term-algebra
constructors the inversion is sound in the solution direction: whenever the
top term evaluates to the same value as toWrap, the topIdx-th argument
evaluates to the value of invertTop's result. -/
theorem invertTop_round_trip (sig : Signature) (ctx : InversionContext) (r : Trm)
    (ρ : Nat → Val) (ι : Nat → List Val → Val)
    (hr : invertTop sig ctx = some r) :
    (∀ s a0 a1, sig.interp ctx.topFun = some (.add s) →
      ctx.topArgs = [a0, a1] → ctx.topIdx < 2 →
      sig.interp (sig.fnOf (.add s)) = some (.add s) →
      sig.interp (sig.fnOf (.minus s)) = some (.minus s) →
      (∃ qw, eval sig ρ ι ctx.toWrap = .num qw) →
      (∃ qo, eval sig ρ ι (otherArg ctx) = .num qo) →
      eval sig ρ ι (substTopArg ctx r) = eval sig ρ ι ctx.toWrap) ∧
    (∀ s a0, sig.interp ctx.topFun = some (.minus s) →
      ctx.topArgs = [a0] → ctx.topIdx = 0 →
      sig.interp (sig.fnOf (.minus s)) = some (.minus s) →
      (∃ qw, eval sig ρ ι ctx.toWrap = .num qw) →
      eval sig ρ ι (substTopArg ctx r) = eval sig ρ ι ctx.toWrap) ∧
    (∀ s a0 a1, (s = NumSort.rat ∨ s = NumSort.real) →
      sig.interp ctx.topFun = some (.mul s) →
      ctx.topArgs = [a0, a1] → ctx.topIdx < 2 →
      sig.interp (sig.fnOf (.mul s)) = some (.mul s) →
      sig.interp (sig.fnOf (.div s)) = some (.div s) →
      sig.interp (sig.fnOf (numOne s)) = some (numOne s) →
      (∃ qw, eval sig ρ ι ctx.toWrap = .num qw) →
      eval sig ρ ι (substTopArg ctx r) = eval sig ρ ι ctx.toWrap) ∧
    (∀ a0 a1, sig.interp ctx.topFun = some (.mul .int) →
      ctx.topArgs = [a0, a1] → ctx.topIdx < 2 →
      sig.interp (sig.fnOf (.mul .int)) = some (.mul .int) →
      (∃ qw, eval sig ρ ι ctx.toWrap = .num qw) →
      eval sig ρ ι (substTopArg ctx r) = eval sig ρ ι ctx.toWrap) ∧
    (∀ a0 a1 a2, sig.interp ctx.topFun = some .arrayStore →
      ctx.topArgs = [a0, a1, a2] → ctx.topIdx = 2 →
      sig.interp (sig.fnOf .arraySelect) = some .arraySelect →
      eval sig ρ ι (.app ctx.topFun ctx.topArgs) = eval sig ρ ι ctx.toWrap →
      (∃ es d, eval sig ρ ι a0 = .arr es d) →
      (∃ qi, eval sig ρ ι a1 = .num qi) →
      eval sig ρ ι a2 = eval sig ρ ι r) ∧
    (sig.interp ctx.topFun = none →
      sig.termAlgebraCons ctx.topFun = true →
      ctx.topIdx < ctx.topArgs.length →
      sig.interp (sig.destructor ctx.topFun ctx.topIdx) = none →
      sig.termAlgebraCons (sig.destructor ctx.topFun ctx.topIdx) = false →
      sig.dtorOf (sig.destructor ctx.topFun ctx.topIdx) = some (ctx.topFun, ctx.topIdx) →
      eval sig ρ ι (.app ctx.topFun ctx.topArgs) = eval sig ρ ι ctx.toWrap →
      eval sig ρ ι (ctx.topArgs.getD ctx.topIdx (Trm.var 0)) = eval sig ρ ι r) := by
  obtain ⟨F, args, i, w⟩ := ctx
  refine ⟨?_, ?_, ?_, ?_, ?_, ?_⟩
  · rintro s a0 a1 hi hargs hidx cohA cohM ⟨qw, hw⟩ ⟨qo, ho⟩
    subst hargs
    exact inv_add_case sig F a0 a1 w r i s ρ ι hr hi hidx cohA cohM qw qo hw ho
  · rintro s a0 hi hargs hidx cohM ⟨qw, hw⟩
    subst hargs
    subst hidx
    exact inv_minus_case sig F a0 w r s ρ ι hr hi cohM qw hw
  · rintro s a0 a1 hfr hi hargs hidx cohMul cohDiv cohOne ⟨qw, hw⟩
    subst hargs
    exact inv_mul_frac_case sig F a0 a1 w r i s ρ ι hr hfr hi hidx cohMul cohDiv
      cohOne qw hw
  · rintro a0 a1 hi hargs hidx cohMul ⟨qw, hw⟩
    subst hargs
    exact inv_mul_int_case sig F a0 a1 w r i ρ ι hr hi hidx cohMul qw hw
  · rintro a0 a1 a2 hi hargs hidx cohSel heq ⟨es, d, ha⟩ ⟨qi, hqi⟩
    subst hargs
    subst hidx
    exact inv_store_case sig F a0 a1 a2 w r ρ ι hr hi cohSel heq es d ha qi hqi
  · rintro hno hta hidx cohD1 cohD2 cohD3 heq
    exact inv_ta_case sig F args w r i ρ ι hr hno hta hidx cohD1 cohD2 cohD3 heq

/-- Witness for C4 at the integer addition instance x0 + x1 = x2 solved for
position 0, all variables valued 1. -/
theorem invertTop_round_trip_witness :
    eval sigA rhoA iotaCX (substTopArg ctxA rA) = eval sigA rhoA iotaCX ctxA.toWrap :=
  (invertTop_round_trip sigA ctxA rA rhoA iotaCX rfl).1 .int (.var 0) (.var 1)
    rfl rfl (by simp [ctxA]) rfl rfl ⟨1, rfl⟩ ⟨1, rfl⟩

/-! ## Theorems: correctness of unification -/

mutual

theorem Trm.subst1_notin (x : Nat) (r : Trm) :
    ∀ t : Trm, x ∉ t.vars → Trm.subst1 x r t = t
  | .var n => by
    intro h
    simp only [Trm.vars, Finset.mem_singleton] at h
    simp only [Trm.subst1]
    rw [if_neg (fun hnx => h hnx.symm)]
  | .app f ts => by
    intro h
    simp only [Trm.vars] at h
    simp only [Trm.subst1]
    rw [Trm.subst1L_notin x r ts h]

theorem Trm.subst1L_notin (x : Nat) (r : Trm) :
    ∀ ts : List Trm, x ∉ Trm.varsL ts → Trm.subst1L x r ts = ts
  | [] => fun _ => rfl
  | t :: ts => by
    intro h
    simp only [Trm.varsL, Finset.mem_union] at h
    push_neg at h
    simp only [Trm.subst1L]
    rw [Trm.subst1_notin x r t h.1, Trm.subst1L_notin x r ts h.2]

end

theorem applyS_app (σ : List (Nat × Trm)) (f : Nat) (ts : List Trm) :
    applyS σ (.app f ts) = .app f (ts.map (applyS σ)) := by
  induction σ generalizing ts with
  | nil =>
    have h : ts.map (applyS []) = ts := by
      induction ts with
      | nil => rfl
      | cons t ts ih2 => simp only [List.map_cons, ih2]; rfl
    rw [h]
    rfl
  | cons b σ ih =>
    show applyS σ (Trm.subst1 b.1 b.2 (.app f ts)) = _
    rw [show Trm.subst1 b.1 b.2 (Trm.app f ts) = Trm.app f (Trm.subst1L b.1 b.2 ts)
      from rfl]
    rw [ih, Trm.subst1L_eq_map, List.map_map]
    congr 1

mutual

theorem occurs_size_le (σ : List (Nat × Trm)) (x : Nat) :
    ∀ t : Trm, x ∈ t.vars → (applyS σ (.var x)).size ≤ (applyS σ t).size
  | .var n => by
    intro h
    simp only [Trm.vars, Finset.mem_singleton] at h
    subst h
    exact le_refl _
  | .app f ts => by
    intro h
    simp only [Trm.vars] at h
    have hl := occursL_size_le σ x ts h
    rw [applyS_app]
    simp only [Trm.size]
    omega

theorem occursL_size_le (σ : List (Nat × Trm)) (x : Nat) :
    ∀ ts : List Trm, x ∈ Trm.varsL ts →
      (applyS σ (.var x)).size ≤ Trm.sizeL (ts.map (applyS σ))
  | [] => by
    intro h
    simp [Trm.varsL] at h
  | t :: ts => by
    intro h
    simp only [Trm.varsL, Finset.mem_union] at h
    simp only [List.map_cons, Trm.sizeL]
    rcases h with h | h
    · have := occurs_size_le σ x t h
      omega
    · have := occursL_size_le σ x ts h
      omega

end

/-- The occurs check is semantically final: a variable occurring in a
compound cannot be unified with it. -/
theorem occurs_ne (σ : List (Nat × Trm)) (x : Nat) (f : Nat) (ts : List Trm)
    (h : x ∈ (Trm.app f ts).vars) :
    applyS σ (.var x) ≠ applyS σ (.app f ts) := by
  intro he
  simp only [Trm.vars] at h
  have hle := occursL_size_le σ x ts h
  rw [he, applyS_app] at hle
  simp only [Trm.size] at hle
  omega

mutual

theorem unifier_subst1 (τ : List (Nat × Trm)) (x : Nat) (t : Trm)
    (hxt : applyS τ (.var x) = applyS τ t) :
    ∀ u : Trm, applyS τ (Trm.subst1 x t u) = applyS τ u
  | .var n => by
    by_cases hn : n = x
    · subst hn
      simp only [Trm.subst1, if_pos rfl]
      exact hxt.symm
    · simp only [Trm.subst1, if_neg hn]
  | .app f us => by
    rw [show Trm.subst1 x t (.app f us) = .app f (Trm.subst1L x t us) from rfl]
    rw [applyS_app, applyS_app]
    rw [unifier_subst1L τ x t hxt us]

theorem unifier_subst1L (τ : List (Nat × Trm)) (x : Nat) (t : Trm)
    (hxt : applyS τ (.var x) = applyS τ t) :
    ∀ us : List Trm, (Trm.subst1L x t us).map (applyS τ) = us.map (applyS τ)
  | [] => rfl
  | u :: us => by
    simp only [Trm.subst1L, List.map_cons]
    rw [unifier_subst1 τ x t hxt u, unifier_subst1L τ x t hxt us]

end

theorem unifiesP_cons {σ : List (Nat × Trm)} {p : Trm × Trm}
    {l : List (Trm × Trm)} :
    unifiesP σ (p :: l) ↔ (applyS σ p.1 = applyS σ p.2 ∧ unifiesP σ l) := by
  constructor
  · intro h
    exact ⟨h p (by simp), fun q hq => h q (by simp [hq])⟩
  · rintro ⟨h1, h2⟩ q hq
    rcases List.mem_cons.1 hq with h | h
    · subst h
      exact h1
    · exact h2 q h

theorem unifiesP_append {σ : List (Nat × Trm)} {a b : List (Trm × Trm)} :
    unifiesP σ (a ++ b) ↔ unifiesP σ a ∧ unifiesP σ b := by
  constructor
  · intro h
    exact ⟨fun q hq => h q (by simp [hq]), fun q hq => h q (by simp [hq])⟩
  · rintro ⟨h1, h2⟩ q hq
    rcases List.mem_append.1 hq with h | h
    · exact h1 q h
    · exact h2 q h

theorem unifiesP_pairSubst1 {τ : List (Nat × Trm)} {x : Nat} {t : Trm}
    {l : List (Trm × Trm)} (hxt : applyS τ (.var x) = applyS τ t) :
    unifiesP τ (pairSubst1 x t l) ↔ unifiesP τ l := by
  constructor
  · intro h p hp
    have hm := h _ (List.mem_map_of_mem
      (fun p => (Trm.subst1 x t p.1, Trm.subst1 x t p.2)) hp)
    simpa [unifier_subst1 τ x t hxt] using hm
  · intro h p hp
    rcases List.mem_map.1 hp with ⟨q, hq, rfl⟩
    simp only
    rw [unifier_subst1 τ x t hxt q.1, unifier_subst1 τ x t hxt q.2]
    exact h q hq

theorem map_eq_of_zip (f : Trm → Trm) :
    ∀ ts us : List Trm, ts.length = us.length →
      (∀ p ∈ List.zip ts us, f p.1 = f p.2) → ts.map f = us.map f
  | [], [], _, _ => rfl
  | [], u :: us, hl, _ => by simp at hl
  | t :: ts, [], hl, _ => by simp at hl
  | t :: ts, u :: us, hl, h => by
    simp only [List.map_cons]
    rw [h (t, u) (by simp),
      map_eq_of_zip f ts us (by simpa using hl) (fun p hp => h p (by simp [hp]))]

theorem zip_of_map_eq (f : Trm → Trm) :
    ∀ ts us : List Trm, ts.map f = us.map f →
      ∀ p ∈ List.zip ts us, f p.1 = f p.2
  | [], _, _, p, hp => by simp at hp
  | t :: ts, [], _, p, hp => by simp at hp
  | t :: ts, u :: us, h, p, hp => by
    simp only [List.map_cons, List.cons.injEq] at h
    rcases List.mem_cons.1 hp with hph | hph
    · subst hph
      exact h.1
    · exact zip_of_map_eq f ts us h.2 p hph

/-- A variable-elimination step preserves soundness. -/
theorem unify_sound_elim (x : Nat) (t : Trm) (rest : List (Trm × Trm))
    (σ' : List (Nat × Trm)) (hocc : x ∉ t.vars)
    (hsound : unifiesP σ' (pairSubst1 x t rest)) :
    unifiesP ((x, t) :: σ') ((Trm.var x, t) :: rest) := by
  rw [unifiesP_cons]
  constructor
  · show applyS σ' (Trm.subst1 x t (.var x)) = applyS σ' (Trm.subst1 x t t)
    rw [show Trm.subst1 x t (Trm.var x) = t from by simp [Trm.subst1]]
    rw [Trm.subst1_notin x t t hocc]
  · intro p hp
    show applyS σ' (Trm.subst1 x t p.1) = applyS σ' (Trm.subst1 x t p.2)
    exact hsound _ (List.mem_map_of_mem _ hp)

/-- unify returns only unifiers. -/
theorem unify_sound (l : List (Trm × Trm)) :
    ∀ σ, unify l = some σ → unifiesP σ l := by
  induction l using unify.induct with
  | case1 =>
    intro σ _ p hp
    simp at hp
  | case2 y rest ih =>
    intro σ h
    rw [unify, if_pos rfl] at h
    rw [unifiesP_cons]
    exact ⟨rfl, ih σ h⟩
  | case3 x y rest hne ih =>
    intro σ h
    rw [unify, if_neg hne] at h
    rcases hu : unify (pairSubst1 x (.var y) rest) with _ | σ' <;> rw [hu] at h
    · exact Option.noConfusion h
    · simp only [Option.map_some', Option.some.injEq] at h
      subst h
      exact unify_sound_elim x (.var y) rest σ'
        (by simp [Trm.vars]; exact fun he => hne he) (ih σ' hu)
  | case4 x g us rest hocc =>
    intro σ h
    rw [unify, if_pos hocc] at h
    exact Option.noConfusion h
  | case5 x g us rest hocc ih =>
    intro σ h
    rw [unify, if_neg hocc] at h
    rcases hu : unify (pairSubst1 x (.app g us) rest) with _ | σ' <;> rw [hu] at h
    · exact Option.noConfusion h
    · simp only [Option.map_some', Option.some.injEq] at h
      subst h
      exact unify_sound_elim x (.app g us) rest σ' hocc (ih σ' hu)
  | case6 f ts x rest hocc =>
    intro σ h
    rw [unify, if_pos hocc] at h
    exact Option.noConfusion h
  | case7 f ts x rest hocc ih =>
    intro σ h
    rw [unify, if_neg hocc] at h
    rcases hu : unify (pairSubst1 x (.app f ts) rest) with _ | σ' <;> rw [hu] at h
    · exact Option.noConfusion h
    · simp only [Option.map_some', Option.some.injEq] at h
      subst h
      have h' := unify_sound_elim x (.app f ts) rest σ' hocc (ih σ' hu)
      rw [unifiesP_cons] at h' ⊢
      exact ⟨h'.1.symm, h'.2⟩
  | case8 f ts g us rest hcond ih =>
    intro σ h
    rw [unify, if_pos hcond] at h
    have hz := ih σ h
    rw [unifiesP_append] at hz
    rw [unifiesP_cons]
    refine ⟨?_, hz.2⟩
    rw [applyS_app, applyS_app, hcond.1]
    rw [map_eq_of_zip (applyS σ) ts us hcond.2 (fun p hp => hz.1 p hp)]
  | case9 f ts g us rest hcond =>
    intro σ h
    rw [unify, if_neg hcond] at h
    exact Option.noConfusion h

/-- A variable-elimination step preserves the most-general property. -/
theorem unify_mgu_elim (x : Nat) (t : Trm) (σ' τ : List (Nat × Trm)) (u : Trm)
    (hxt : applyS τ (.var x) = applyS τ t)
    (ih : ∀ v, applyS τ (applyS σ' v) = applyS τ v) :
    applyS τ (applyS ((x, t) :: σ') u) = applyS τ u := by
  show applyS τ (applyS σ' (Trm.subst1 x t u)) = applyS τ u
  rw [ih (Trm.subst1 x t u)]
  exact unifier_subst1 τ x t hxt u

/-- Every unifier factors through the substitution unify returns. -/
theorem unify_mgu (l : List (Trm × Trm)) :
    ∀ σ, unify l = some σ → ∀ τ, unifiesP τ l →
      ∀ u, applyS τ (applyS σ u) = applyS τ u := by
  induction l using unify.induct with
  | case1 =>
    intro σ h τ _ u
    simp only [unify, Option.some.injEq] at h
    subst h
    rfl
  | case2 y rest ih =>
    intro σ h τ hτ u
    rw [unify, if_pos rfl] at h
    exact ih σ h τ (unifiesP_cons.1 hτ).2 u
  | case3 x y rest hne ih =>
    intro σ h τ hτ u
    rw [unify, if_neg hne] at h
    rcases hu : unify (pairSubst1 x (.var y) rest) with _ | σ' <;> rw [hu] at h
    · exact Option.noConfusion h
    · simp only [Option.map_some', Option.some.injEq] at h
      subst h
      have hxt : applyS τ (.var x) = applyS τ (.var y) := (unifiesP_cons.1 hτ).1
      exact unify_mgu_elim x (.var y) σ' τ u hxt
        (ih σ' hu τ ((unifiesP_pairSubst1 hxt).2 (unifiesP_cons.1 hτ).2))
  | case4 x g us rest hocc =>
    intro σ h
    rw [unify, if_pos hocc] at h
    exact Option.noConfusion h
  | case5 x g us rest hocc ih =>
    intro σ h τ hτ u
    rw [unify, if_neg hocc] at h
    rcases hu : unify (pairSubst1 x (.app g us) rest) with _ | σ' <;> rw [hu] at h
    · exact Option.noConfusion h
    · simp only [Option.map_some', Option.some.injEq] at h
      subst h
      have hxt : applyS τ (.var x) = applyS τ (.app g us) := (unifiesP_cons.1 hτ).1
      exact unify_mgu_elim x (.app g us) σ' τ u hxt
        (ih σ' hu τ ((unifiesP_pairSubst1 hxt).2 (unifiesP_cons.1 hτ).2))
  | case6 f ts x rest hocc =>
    intro σ h
    rw [unify, if_pos hocc] at h
    exact Option.noConfusion h
  | case7 f ts x rest hocc ih =>
    intro σ h τ hτ u
    rw [unify, if_neg hocc] at h
    rcases hu : unify (pairSubst1 x (.app f ts) rest) with _ | σ' <;> rw [hu] at h
    · exact Option.noConfusion h
    · simp only [Option.map_some', Option.some.injEq] at h
      subst h
      have hxt : applyS τ (.var x) = applyS τ (.app f ts) :=
        (unifiesP_cons.1 hτ).1.symm
      exact unify_mgu_elim x (.app f ts) σ' τ u hxt
        (ih σ' hu τ ((unifiesP_pairSubst1 hxt).2 (unifiesP_cons.1 hτ).2))
  | case8 f ts g us rest hcond ih =>
    intro σ h τ hτ u
    rw [unify, if_pos hcond] at h
    refine ih σ h τ ?_ u
    rw [unifiesP_append]
    have hh := (unifiesP_cons.1 hτ).1
    rw [applyS_app, applyS_app] at hh
    injection hh with _ h2
    exact ⟨fun p hp => zip_of_map_eq (applyS τ) ts us h2 p hp, (unifiesP_cons.1 hτ).2⟩
  | case9 f ts g us rest hcond =>
    intro σ h
    rw [unify, if_neg hcond] at h
    exact Option.noConfusion h

/-- unify succeeds on every unifiable list of pairs. -/
theorem unify_complete (l : List (Trm × Trm)) :
    ∀ τ, unifiesP τ l → (unify l).isSome = true := by
  induction l using unify.induct with
  | case1 =>
    intro τ _
    simp [unify]
  | case2 y rest ih =>
    intro τ h
    rw [unify, if_pos rfl]
    exact ih τ (unifiesP_cons.1 h).2
  | case3 x y rest hne ih =>
    intro τ h
    rw [unify, if_neg hne]
    have hxt : applyS τ (.var x) = applyS τ (.var y) := (unifiesP_cons.1 h).1
    have := ih τ ((unifiesP_pairSubst1 hxt).2 (unifiesP_cons.1 h).2)
    simpa using this
  | case4 x g us rest hocc =>
    intro τ h
    exact absurd (unifiesP_cons.1 h).1 (occurs_ne τ x g us hocc)
  | case5 x g us rest hocc ih =>
    intro τ h
    rw [unify, if_neg hocc]
    have hxt : applyS τ (.var x) = applyS τ (.app g us) := (unifiesP_cons.1 h).1
    have := ih τ ((unifiesP_pairSubst1 hxt).2 (unifiesP_cons.1 h).2)
    simpa using this
  | case6 f ts x rest hocc =>
    intro τ h
    exact absurd (unifiesP_cons.1 h).1.symm (occurs_ne τ x f ts hocc)
  | case7 f ts x rest hocc ih =>
    intro τ h
    rw [unify, if_neg hocc]
    have hxt : applyS τ (.var x) = applyS τ (.app f ts) :=
      (unifiesP_cons.1 h).1.symm
    have := ih τ ((unifiesP_pairSubst1 hxt).2 (unifiesP_cons.1 h).2)
    simpa using this
  | case8 f ts g us rest hcond ih =>
    intro τ h
    rw [unify, if_pos hcond]
    apply ih τ
    rw [unifiesP_append]
    have hh := (unifiesP_cons.1 h).1
    rw [applyS_app, applyS_app] at hh
    injection hh with _ h2
    exact ⟨fun p hp => zip_of_map_eq (applyS τ) ts us h2 p hp, (unifiesP_cons.1 h).2⟩
  | case9 f ts g us rest hcond =>
    intro τ h
    exfalso
    have hh := (unifiesP_cons.1 h).1
    rw [applyS_app, applyS_app] at hh
    injection hh with h1 h2
    exact hcond ⟨h1, by simpa using congrArg List.length h2⟩

/-! ## Theorems: the literal index -/

theorem applyLit_eq_iff (σ : List (Nat × Trm)) (l q : Lit) :
    applyLit σ l = applyLit σ q ↔
      (l.pred = q.pred ∧ l.pol = q.pol ∧ l.args.length = q.args.length ∧
        unifiesP σ (List.zip l.args q.args)) := by
  constructor
  · intro h
    simp only [applyLit, Lit.mk.injEq] at h
    obtain ⟨h1, h2, h3⟩ := h
    refine ⟨h1, h2, by simpa using congrArg List.length h3, ?_⟩
    exact fun p hp => zip_of_map_eq (applyS σ) l.args q.args h3 p hp
  · rintro ⟨h1, h2, h3, h4⟩
    simp only [applyLit, Lit.mk.injEq]
    exact ⟨h1, h2, map_eq_of_zip (applyS σ) l.args q.args h3 (fun p hp => h4 p hp)⟩

theorem litMguExists_iff (l q : Lit) :
    litMguExists l q ↔
      (l.pred = q.pred ∧ l.pol = q.pol ∧ litUnifiable l q = true) := by
  constructor
  · rintro ⟨σ, hu, _⟩
    rw [applyLit_eq_iff] at hu
    refine ⟨hu.1, hu.2.1, ?_⟩
    simp only [litUnifiable, Bool.and_eq_true, decide_eq_true_eq]
    exact ⟨⟨hu.1, hu.2.2.1⟩, unify_complete _ σ hu.2.2.2⟩
  · rintro ⟨h1, h2, h3⟩
    simp only [litUnifiable, Bool.and_eq_true, decide_eq_true_eq] at h3
    obtain ⟨⟨_, hlen⟩, hsome⟩ := h3
    rcases hu : unify (List.zip l.args q.args) with _ | σ
    · rw [hu] at hsome
      simp at hsome
    · refine ⟨σ, ?_, ?_⟩
      · rw [applyLit_eq_iff]
        exact ⟨h1, h2, hlen, unify_sound _ σ hu⟩
      · intro τ hτ u
        rw [applyLit_eq_iff] at hτ
        exact unify_mgu _ σ hu τ hτ.2.2.2 u

theorem complQuery_pred (q : Lit) (c : Bool) :
    (complQuery q c).pred = q.pred := by
  cases c <;> simp [complQuery]

theorem litUnifiable_compl (l q : Lit) (c : Bool) :
    litUnifiable l (complQuery q c) = litUnifiable l q := by
  cases c <;> rfl

/-- C7: getUnifications yields only stored data whose literal has an mgu with
the (polarity-adjusted) query, yields every such stored datum — each exactly
once when the insertion history holds each datum once — and its output is a
function of the insertion history, hence deterministic. -/
theorem getUnifications_spec (stored : List (Lit × Nat)) (q : Lit)
    (complementary : Bool) :
    (∀ d ∈ getUnifications stored q complementary,
      litMguExists d.1 (complQuery q complementary)) ∧
    (∀ d ∈ stored, litMguExists d.1 (complQuery q complementary) →
      d ∈ getUnifications stored q complementary) ∧
    (stored.Nodup → (getUnifications stored q complementary).Nodup) ∧
    (∀ stored2 : List (Lit × Nat), stored = stored2 →
      getUnifications stored q complementary =
        getUnifications stored2 q complementary) := by
  refine ⟨?_, ?_, ?_, ?_⟩
  · intro d hd
    rw [getUnifications, List.mem_filter] at hd
    obtain ⟨hmem, hb⟩ := hd
    simp only [Bool.and_eq_true, beq_iff_eq] at hb
    rw [litMguExists_iff]
    have hun := hb.2
    have hparts : d.1.pred = q.pred := by
      simp only [litUnifiable, Bool.and_eq_true, decide_eq_true_eq] at hun
      exact hun.1.1
    refine ⟨by rw [complQuery_pred]; exact hparts, hb.1, ?_⟩
    rw [litUnifiable_compl]
    exact hb.2
  · intro d hmem hmgu
    rw [litMguExists_iff] at hmgu
    rw [getUnifications, List.mem_filter]
    refine ⟨hmem, ?_⟩
    simp only [Bool.and_eq_true, beq_iff_eq]
    refine ⟨hmgu.2.1, ?_⟩
    rw [← litUnifiable_compl d.1 q complementary]
    exact hmgu.2.2
  · intro h
    exact h.filter _
  · intro s2 h
    subst h
    rfl

end Vamp
